import Mathlib

/-!
Verification of the Eliza Desktop process supervisor
(src/eliza/packages/app/src-tauri/src/lib.rs) against its design
specification.

The Rust source is shallowly embedded: filesystem access, environment
variables, process spawning and TCP probing are modelled as explicit
oracle inputs (a snapshot record `FS`, an environment record `Env`,
boolean outcomes for trial invocations, an `Option Child` for spawn
results), and each Rust function becomes a pure Lean function of those
oracles.  Paths are lists of components; `join` is list append and
`parent` drops the last component.
-/

namespace ElizaDesktop

/-- A filesystem path, as a list of components.  `PathBuf::join` is append,
`Path::parent` drops the last component (none at the root). -/
abbrev Path : Type := List String

/-- `Path::parent`: none for an empty path, otherwise the path without its
last component. -/
def pathParent (p : Path) : Option Path :=
  match p with
  | [] => none
  | l => some l.dropLast

/-- A snapshot of the host filesystem, as oracles for the system calls the
source makes: `exists()`, `is_dir()`, `read_to_string` and
`canonicalize()` (which fails on paths that do not exist). -/
structure FS where
  pathExists : Path → Bool
  isDir : Path → Bool
  readFile : Path → Option String
  canonicalize : Path → Option Path

/-- `pat` is a prefix of `s` (on character lists). -/
def isPreOf : List Char → List Char → Bool
  | [], _ => true
  | _ :: _, [] => false
  | a :: as, b :: bs => a == b && isPreOf as bs

/-- `pat` occurs as a contiguous run somewhere in `s`:
Rust's `str::contains` with a literal pattern. -/
def hasSubList (pat : List Char) : List Char → Bool
  | [] => isPreOf pat []
  | c :: rest => isPreOf pat (c :: rest) || hasSubList pat (c :: rest).tail

/-- Rust's `contents.contains(pat)` for string literals. -/
def strHasSub (s pat : String) : Bool :=
  hasSubList pat.toList s.toList

/-- The manifest identity check of `validate_project_directory`
(lib.rs lines 211-218): the three-way disjunction over the contents of
`package.json`. -/
def manifestIdentityCheck (contents : String) : Bool :=
  strHasSub contents "\"name\": \"trading-brain\"" ||
  strHasSub contents "\"name\":\"trading-brain\"" ||
  strHasSub contents "trading-brain"

/-- `validate_project_directory` (lib.rs lines 201-219): the path exists,
is a directory, holds a `package.json`, and that file reads successfully
with contents passing the identity check. -/
def validate_project_directory (fs : FS) (path : Path) : Bool :=
  if !fs.pathExists path || !fs.isDir path then
    false
  else
    let package_json := path ++ ["package.json"]
    if !fs.pathExists package_json then
      false
    else
      match fs.readFile package_json with
      | some contents => manifestIdentityCheck contents
      | none => false

/-- The validity predicate as the specification states it (spec section 3):
exists, is a directory, contains the manifest, and the manifest's contents
satisfy the identity check. -/
def validDirSpec (fs : FS) (path : Path) : Prop :=
  fs.pathExists path = true ∧ fs.isDir path = true ∧
  fs.pathExists (path ++ ["package.json"]) = true ∧
  ∃ contents, fs.readFile (path ++ ["package.json"]) = some contents ∧
    manifestIdentityCheck contents = true

theorem isPreOf_append_elim (a b s : List Char)
    (h : isPreOf (a ++ b) s = true) :
    ∃ s', s = a ++ s' ∧ isPreOf b s' = true := by
  induction a generalizing s with
  | nil => exact ⟨s, rfl, h⟩
  | cons x a ih =>
    cases s with
    | nil => simp [isPreOf] at h
    | cons y s =>
      simp only [List.cons_append, isPreOf, Bool.and_eq_true, beq_iff_eq] at h
      obtain ⟨rfl, h2⟩ := h
      obtain ⟨s', rfl, hp⟩ := ih s h2
      exact ⟨s', rfl, hp⟩

theorem isPreOf_of_append (b c s : List Char)
    (h : isPreOf (b ++ c) s = true) : isPreOf b s = true := by
  induction b generalizing s with
  | nil => rfl
  | cons x b ih =>
    cases s with
    | nil => simp [isPreOf] at h
    | cons y s =>
      simp only [List.cons_append, isPreOf, Bool.and_eq_true, beq_iff_eq] at h ⊢
      exact ⟨h.1, ih s h.2⟩

theorem hasSubList_of_isPreOf (pat s : List Char)
    (h : isPreOf pat s = true) : hasSubList pat s = true := by
  cases s with
  | nil => simpa [hasSubList] using h
  | cons c rest => simp [hasSubList, h]

theorem hasSubList_cons (pat : List Char) (c : Char) (s : List Char)
    (h : hasSubList pat s = true) : hasSubList pat (c :: s) = true := by
  simp [hasSubList, h]

theorem hasSubList_append_left (pat a s : List Char)
    (h : hasSubList pat s = true) : hasSubList pat (a ++ s) = true := by
  induction a with
  | nil => simpa using h
  | cons z a ih => exact hasSubList_cons pat z (a ++ s) ih

/-- If a string contains `a ++ b ++ c` it contains `b`. -/
theorem hasSubList_middle (a b c s : List Char)
    (h : hasSubList (a ++ b ++ c) s = true) : hasSubList b s = true := by
  induction s with
  | nil =>
    simp only [hasSubList, Bool.or_eq_true] at h
    obtain ⟨s', hs', hpre⟩ := isPreOf_append_elim a (b ++ c) [] (by
      simpa [List.append_assoc] using h)
    have hb : isPreOf b s' = true := isPreOf_of_append b c s' hpre
    cases a with
    | nil =>
      cases hs'
      exact hasSubList_of_isPreOf b [] hb
    | cons x a => simp at hs'
  | cons y s ih =>
    simp only [hasSubList, List.tail_cons, Bool.or_eq_true] at h
    rcases h with h | h
    · obtain ⟨s', hs', hpre⟩ := isPreOf_append_elim a (b ++ c) (y :: s) (by
        simpa [List.append_assoc] using h)
      have hb : isPreOf b s' = true := isPreOf_of_append b c s' hpre
      have hsub : hasSubList b s' = true := hasSubList_of_isPreOf b s' hb
      rw [hs']
      exact hasSubList_append_left b a s' hsub
    · exact hasSubList_cons b y s (ih h)

theorem strHasSub_exact1 (s : String)
    (h : strHasSub s "\"name\": \"trading-brain\"" = true) :
    strHasSub s "trading-brain" = true := by
  have := hasSubList_middle ("\"name\": \"".toList) ("trading-brain".toList)
    ("\"".toList) s.toList (by
      have heq : ("\"name\": \"".toList ++ "trading-brain".toList ++ "\"".toList)
          = ("\"name\": \"trading-brain\"").toList := by decide
      rw [heq]; exact h)
  exact this

theorem strHasSub_exact2 (s : String)
    (h : strHasSub s "\"name\":\"trading-brain\"" = true) :
    strHasSub s "trading-brain" = true := by
  have := hasSubList_middle ("\"name\":\"".toList) ("trading-brain".toList)
    ("\"".toList) s.toList (by
      have heq : ("\"name\":\"".toList ++ "trading-brain".toList ++ "\"".toList)
          = ("\"name\":\"trading-brain\"").toList := by decide
      rw [heq]; exact h)
  exact this

/-- C9: The three-way disjunction in the manifest identity check collapses
to its last disjunct: each exact name-field match contains
`trading-brain` as a substring, so for every file contents the check is
equal to the bare substring test `contents.contains("trading-brain")`. -/
theorem manifest_check_reduces_to_substring (contents : String) :
    manifestIdentityCheck contents = strHasSub contents "trading-brain" := by
  unfold manifestIdentityCheck
  cases h3 : strHasSub contents "trading-brain"
  · cases h1 : strHasSub contents "\"name\": \"trading-brain\""
    · cases h2 : strHasSub contents "\"name\":\"trading-brain\""
      · simp
      · rw [strHasSub_exact2 contents h2] at h3; cases h3
    · rw [strHasSub_exact1 contents h1] at h3; cases h3
  · simp [h3]

/-- C6: the validity predicate of `validate_project_directory` holds iff
the path exists, is a directory, contains a `package.json`, and that
manifest's contents satisfy the identity check (exact name-field match or
substring occurrence of the project name). -/
theorem validate_iff_spec (fs : FS) (path : Path) :
    validate_project_directory fs path = true ↔ validDirSpec fs path := by
  unfold validate_project_directory validDirSpec
  constructor
  · intro h
    by_cases he : fs.pathExists path = true
    · by_cases hd : fs.isDir path = true
      · simp only [he, hd, Bool.not_true, Bool.or_self, Bool.false_eq_true,
          if_false] at h
        by_cases hp : fs.pathExists (path ++ ["package.json"]) = true
        · simp only [hp, Bool.not_true, Bool.false_eq_true, if_false] at h
          cases hr : fs.readFile (path ++ ["package.json"]) with
          | none => rw [hr] at h; cases h
          | some contents =>
            rw [hr] at h
            exact ⟨he, hd, hp, contents, rfl, h⟩
        · simp only [Bool.not_eq_true] at hp
          simp [hp] at h
      · simp only [Bool.not_eq_true] at hd
        simp [hd] at h
    · simp only [Bool.not_eq_true] at he
      simp [he] at h
  · rintro ⟨he, hd, hp, contents, hr, hc⟩
    simp [he, hd, hp, hr, hc]

/-- The process environment the locator reads: `ELIZA_PROJECT_PATH`,
`USERPROFILE`, `std::env::current_exe()` and `std::env::current_dir()`
(each absent when the corresponding call errors).  Environment-variable
values are modelled directly as paths. -/
structure Env where
  elizaProjectPath : Option Path
  userProfile : Option Path
  currentExe : Option Path
  currentDir : Option Path

/-- Canonicalize a candidate and validate it: the body of each
`if let Ok(canonical_path) = ...canonicalize() { if validate... }` block
of `find_project_directory`.  Returns the canonical path on success. -/
def tryCandidate (fs : FS) (p : Path) : Option Path :=
  match fs.canonicalize p with
  | some canonical_path =>
    if validate_project_directory fs canonical_path then some canonical_path
    else none
  | none => none

/-- The six conventional developer locations under the home directory
(lib.rs lines 102-109). -/
def common_locations (home : Path) : List Path :=
  [home ++ ["Civ", "eliza", "trading-brain"],
   home ++ ["Documents", "Civ", "eliza", "trading-brain"],
   home ++ ["Desktop", "Civ", "eliza", "trading-brain"],
   home ++ ["Projects", "Civ", "eliza", "trading-brain"],
   home ++ ["eliza", "trading-brain"],
   home ++ ["Civ", "trading-brain"]]

/-- The three hardcoded last-resort paths (lib.rs lines 181-185), kept as
opaque single-component paths since they are never joined or split. -/
def fallback_paths : List Path :=
  [["C:\\Users\\Top Cash Pawn\\Civ\\eliza\\trading-brain"],
   ["C:\\Users\\Top Cash Pawn\\Documents\\Civ\\eliza\\trading-brain"],
   ["C:\\Users\\Top Cash Pawn\\Desktop\\Civ\\eliza\\trading-brain"]]

/-- The ancestor walk from the executable's directory (lib.rs lines
124-154): at each of up to 15 levels check `<dir>/eliza/trading-brain`
then `<dir>/trading-brain`, then move to the parent, stopping when there
is none. -/
def searchLoopExe (fs : FS) : Nat → Path → Option Path
  | 0, _ => none
  | fuel + 1, current =>
    match tryCandidate fs (current ++ ["eliza", "trading-brain"]) with
    | some r => some r
    | none =>
      match tryCandidate fs (current ++ ["trading-brain"]) with
      | some r => some r
      | none =>
        match pathParent current with
        | some p => searchLoopExe fs fuel p
        | none => none

/-- The ancestor walk from the working directory (lib.rs lines 162-177):
at each of up to 10 levels check `<dir>/eliza/trading-brain`, then move to
the parent, stopping when there is none. -/
def searchLoopCwd (fs : FS) : Nat → Path → Option Path
  | 0, _ => none
  | fuel + 1, current =>
    match tryCandidate fs (current ++ ["eliza", "trading-brain"]) with
    | some r => some r
    | none =>
      match pathParent current with
      | some p => searchLoopCwd fs fuel p
      | none => none

/-- Early return: the result of an earlier search phase if it found
something, otherwise the later phases' result. -/
def orElseFirst (a b : Option Path) : Option Path :=
  match a with
  | some r => some r
  | none => b

/-- `find_project_directory` (lib.rs lines 81-198): the five phases in
priority order — environment override, home-directory conventional
locations, exe ancestor walk, cwd ancestor walk, hardcoded fallbacks —
each returning early on the first candidate that canonicalizes and
validates. -/
def find_project_directory (fs : FS) (env : Env) : Option Path :=
  orElseFirst
    (match env.elizaProjectPath with
     | some p => tryCandidate fs p
     | none => none)
    (orElseFirst
      (match env.userProfile with
       | some home => (common_locations home).findSome? (tryCandidate fs)
       | none => none)
      (orElseFirst
        (match env.currentExe with
         | some exe_path =>
           match pathParent exe_path with
           | some start => searchLoopExe fs 15 start
           | none => none
         | none => none)
        (orElseFirst
          (match env.currentDir with
           | some cwd => searchLoopCwd fs 10 cwd
           | none => none)
          (fallback_paths.findSome? (tryCandidate fs)))))

/-- The candidates the exe ancestor walk visits, in order. -/
def exeWalkCandidates : Nat → Path → List Path
  | 0, _ => []
  | fuel + 1, current =>
    (current ++ ["eliza", "trading-brain"]) ::
    (current ++ ["trading-brain"]) ::
    (match pathParent current with
     | some p => exeWalkCandidates fuel p
     | none => [])

/-- The candidates the cwd ancestor walk visits, in order. -/
def cwdWalkCandidates : Nat → Path → List Path
  | 0, _ => []
  | fuel + 1, current =>
    (current ++ ["eliza", "trading-brain"]) ::
    (match pathParent current with
     | some p => cwdWalkCandidates fuel p
     | none => [])

/-- The full candidate list of the locator, in its fixed priority order:
environment override, home-directory conventional subpaths, exe ancestor
walk (15 levels), cwd ancestor walk (10 levels), hardcoded fallbacks. -/
def candidateList (env : Env) : List Path :=
  (match env.elizaProjectPath with
   | some p => [p]
   | none => []) ++
  (match env.userProfile with
   | some home => common_locations home
   | none => []) ++
  (match env.currentExe with
   | some exe_path =>
     match pathParent exe_path with
     | some start => exeWalkCandidates 15 start
     | none => []
   | none => []) ++
  (match env.currentDir with
   | some cwd => cwdWalkCandidates 10 cwd
   | none => []) ++
  fallback_paths

theorem orElseFirst_assoc (a b c : Option Path) :
    orElseFirst (orElseFirst a b) c = orElseFirst a (orElseFirst b c) := by
  cases a <;> rfl

theorem findSome?_append_phases (f : Path → Option Path) (l₁ l₂ : List Path) :
    (l₁ ++ l₂).findSome? f
      = orElseFirst (l₁.findSome? f) (l₂.findSome? f) := by
  induction l₁ with
  | nil => simp [List.findSome?, orElseFirst]
  | cons a l ih =>
    simp only [List.cons_append, List.findSome?]
    cases f a with
    | some b => rfl
    | none => exact ih

theorem searchLoopExe_eq_findSome (fs : FS) (fuel : Nat) (current : Path) :
    searchLoopExe fs fuel current
      = (exeWalkCandidates fuel current).findSome? (tryCandidate fs) := by
  induction fuel generalizing current with
  | zero => rfl
  | succ n ih =>
    simp only [searchLoopExe, exeWalkCandidates, List.findSome?]
    cases tryCandidate fs (current ++ ["eliza", "trading-brain"]) with
    | some r => rfl
    | none =>
      cases tryCandidate fs (current ++ ["trading-brain"]) with
      | some r => rfl
      | none =>
        cases pathParent current with
        | some p => exact ih p
        | none => rfl

theorem searchLoopCwd_eq_findSome (fs : FS) (fuel : Nat) (current : Path) :
    searchLoopCwd fs fuel current
      = (cwdWalkCandidates fuel current).findSome? (tryCandidate fs) := by
  induction fuel generalizing current with
  | zero => rfl
  | succ n ih =>
    simp only [searchLoopCwd, cwdWalkCandidates, List.findSome?]
    cases tryCandidate fs (current ++ ["eliza", "trading-brain"]) with
    | some r => rfl
    | none =>
      cases pathParent current with
      | some p => exact ih p
      | none => rfl

theorem validate_of_tryCandidate (fs : FS) (p r : Path)
    (h : tryCandidate fs p = some r) :
    validate_project_directory fs r = true := by
  unfold tryCandidate at h
  cases hc : fs.canonicalize p with
  | none => rw [hc] at h; cases h
  | some cp =>
    rw [hc] at h
    by_cases hv : validate_project_directory fs cp = true
    · have hcp : some cp = some r := by simpa [hv] using h
      cases hcp
      exact hv
    · simp [hv] at h

theorem validate_of_findSome (fs : FS) (l : List Path) (r : Path)
    (h : l.findSome? (tryCandidate fs) = some r) :
    validate_project_directory fs r = true := by
  induction l with
  | nil => cases h
  | cons a l ih =>
    simp only [List.findSome?] at h
    cases ha : tryCandidate fs a with
    | some b =>
      rw [ha] at h
      cases h
      exact validate_of_tryCandidate fs a r ha
    | none =>
      rw [ha] at h
      exact ih h

/-- C1: the locator returns exactly the first candidate, in the fixed
priority order, whose canonicalized path passes the validity predicate
(`List.findSome?` over the ordered candidate list), and every path it
returns has passed the full predicate; when no candidate passes it
returns `none`. -/
theorem locate_first_valid_candidate (fs : FS) (env : Env) :
    find_project_directory fs env
      = (candidateList env).findSome? (tryCandidate fs) ∧
    ∀ r, find_project_directory fs env = some r →
      validate_project_directory fs r = true := by
  have h1 : (match env.elizaProjectPath with
      | some p => tryCandidate fs p
      | none => none)
    = (match env.elizaProjectPath with
      | some p => ([p] : List Path)
      | none => []).findSome? (tryCandidate fs) := by
    cases env.elizaProjectPath with
    | none => simp [List.findSome?]
    | some p =>
      simp only [List.findSome?]
      cases tryCandidate fs p <;> rfl
  have h2 : (match env.userProfile with
      | some home => (common_locations home).findSome? (tryCandidate fs)
      | none => none)
    = (match env.userProfile with
      | some home => common_locations home
      | none => []).findSome? (tryCandidate fs) := by
    cases env.userProfile with
    | none => simp [List.findSome?]
    | some home => rfl
  have h3 : (match env.currentExe with
      | some exe_path =>
        match pathParent exe_path with
        | some start => searchLoopExe fs 15 start
        | none => none
      | none => none)
    = (match env.currentExe with
      | some exe_path =>
        match pathParent exe_path with
        | some start => exeWalkCandidates 15 start
        | none => ([] : List Path)
      | none => []).findSome? (tryCandidate fs) := by
    cases env.currentExe with
    | none => simp [List.findSome?]
    | some exe_path =>
      dsimp only
      cases pathParent exe_path with
      | none => simp [List.findSome?]
      | some start => exact searchLoopExe_eq_findSome fs 15 start
  have h4 : (match env.currentDir with
      | some cwd => searchLoopCwd fs 10 cwd
      | none => none)
    = (match env.currentDir with
      | some cwd => cwdWalkCandidates 10 cwd
      | none => ([] : List Path)).findSome? (tryCandidate fs) := by
    cases env.currentDir with
    | none => simp [List.findSome?]
    | some cwd => exact searchLoopCwd_eq_findSome fs 10 cwd
  have heq : find_project_directory fs env
      = (candidateList env).findSome? (tryCandidate fs) := by
    unfold find_project_directory candidateList
    rw [findSome?_append_phases, findSome?_append_phases,
      findSome?_append_phases, findSome?_append_phases]
    rw [orElseFirst_assoc, orElseFirst_assoc, orElseFirst_assoc]
    rw [h1, h2, h3, h4]
  refine ⟨heq, ?_⟩
  intro r hr
  rw [heq] at hr
  exact validate_of_findSome fs (candidateList env) r hr

/-! ## Readiness Prober -/

/-- Observable outcome of one run of the readiness wait loop: the returned
boolean, the number of reachability checks performed, and the total time
slept (in seconds). -/
structure WaitRun where
  ok : Bool
  checks : Nat
  sleepTime : Nat

/-- The loop body of `wait_for_server` (lib.rs lines 69-76), instrumented
with the number of probes and the slept time.  `probe i` is the result
`is_server_running()` returns on iteration `i`; after a failed probe the
loop sleeps `2 ^ min i 3` seconds and continues. -/
def waitLoop (probe : Nat → Bool) : Nat → Nat → WaitRun
  | _, 0 => ⟨false, 0, 0⟩
  | i, fuel + 1 =>
    if probe i then ⟨true, 1, 0⟩
    else
      let delay := 2 ^ (min i 3)
      let rest := waitLoop probe (i + 1) fuel
      ⟨rest.ok, rest.checks + 1, rest.sleepTime + delay⟩

/-- `wait_for_server` (lib.rs lines 68-78), with its observable run. -/
def wait_for_server (probe : Nat → Bool) (max_retries : Nat) : WaitRun :=
  waitLoop probe 0 max_retries

theorem pow_min_three (i : Nat) : 2 ^ (min i 3) = min (2 ^ i) 8 := by
  rcases le_or_lt i 3 with h | h
  · rw [min_eq_left h, min_eq_left]
    calc 2 ^ i ≤ 2 ^ 3 := Nat.pow_le_pow_right (by norm_num) h
      _ = 8 := by norm_num
  · rw [min_eq_right (by omega), min_eq_right]
    · norm_num
    · calc (8 : Nat) = 2 ^ 3 := by norm_num
        _ ≤ 2 ^ i := Nat.pow_le_pow_right (by norm_num) (by omega)

theorem waitLoop_checks_le (probe : Nat → Bool) (fuel : Nat) :
    ∀ i, (waitLoop probe i fuel).checks ≤ fuel := by
  induction fuel with
  | zero => intro i; simp [waitLoop]
  | succ n ih =>
    intro i
    by_cases h : probe i = true
    · simp [waitLoop, h]
    · simp only [waitLoop, h, Bool.false_eq_true, if_false]
      have := ih (i + 1)
      omega

theorem waitLoop_sleep_le (probe : Nat → Bool) (fuel : Nat) :
    ∀ i, (waitLoop probe i fuel).sleepTime
      ≤ ∑ j ∈ Finset.range fuel, min (2 ^ (i + j)) 8 := by
  induction fuel with
  | zero => intro i; simp [waitLoop]
  | succ n ih =>
    intro i
    have hsum : (∑ j ∈ Finset.range (n + 1), min (2 ^ (i + j)) 8)
        = (∑ j ∈ Finset.range n, min (2 ^ (i + 1 + j)) 8) + min (2 ^ i) 8 := by
      rw [Finset.sum_range_succ']
      congr 1
      exact Finset.sum_congr rfl (fun j _ => by
        rw [show i + (j + 1) = i + 1 + j by omega])
    by_cases h : probe i = true
    · simp [waitLoop, h]
    · simp only [waitLoop, h, Bool.false_eq_true, if_false]
      rw [hsum]
      have := ih (i + 1)
      have hd : 2 ^ (min i 3) = min (2 ^ i) 8 := pow_min_three i
      simp only [hd]
      omega

theorem waitLoop_ok_iff (probe : Nat → Bool) (fuel : Nat) :
    ∀ i, (waitLoop probe i fuel).ok = true
      ↔ ∃ j, j < fuel ∧ probe (i + j) = true := by
  induction fuel with
  | zero => intro i; simp [waitLoop]
  | succ n ih =>
    intro i
    by_cases h : probe i = true
    · simp only [waitLoop, h, if_true]
      constructor
      · intro _
        exact ⟨0, Nat.succ_pos n, by simpa using h⟩
      · intro _
        trivial
    · simp only [waitLoop, h, Bool.false_eq_true, if_false]
      rw [ih (i + 1)]
      constructor
      · rintro ⟨j, hj, hp⟩
        refine ⟨j + 1, by omega, ?_⟩
        rw [show i + (j + 1) = i + 1 + j by omega]
        exact hp
      · rintro ⟨j, hj, hp⟩
        cases j with
        | zero =>
          rw [Nat.add_zero] at hp
          rw [hp] at h
          cases h rfl
        | succ k =>
          refine ⟨k, by omega, ?_⟩
          rw [show i + 1 + k = i + (k + 1) by omega]
          exact hp

theorem waitLoop_first_success (probe : Nat → Bool) (fuel : Nat) :
    ∀ i, (waitLoop probe i fuel).ok = true →
      0 < (waitLoop probe i fuel).checks ∧
      probe (i + (waitLoop probe i fuel).checks - 1) = true ∧
      ∀ j, j < (waitLoop probe i fuel).checks - 1 → probe (i + j) = false := by
  induction fuel with
  | zero => intro i hok; simp [waitLoop] at hok
  | succ n ih =>
    intro i hok
    by_cases h : probe i = true
    · simp only [waitLoop, h, if_true]
      refine ⟨Nat.one_pos, ?_, ?_⟩
      · simpa using h
      · intro j hj
        omega
    · simp only [waitLoop, h, Bool.false_eq_true, if_false] at hok ⊢
      obtain ⟨hpos, hsucc, hfail⟩ := ih (i + 1) hok
      refine ⟨by omega, ?_, ?_⟩
      · rw [show i + ((waitLoop probe (i + 1) n).checks + 1) - 1
            = i + 1 + (waitLoop probe (i + 1) n).checks - 1 by omega]
        exact hsucc
      · intro j hj
        cases j with
        | zero =>
          rw [Nat.add_zero]
          exact Bool.not_eq_true (probe i) |>.mp h
        | succ k =>
          rw [show i + (k + 1) = i + 1 + k by omega]
          exact hfail k (by omega)

theorem waitLoop_all_fail (probe : Nat → Bool) (fuel : Nat) :
    ∀ i, (waitLoop probe i fuel).ok = false →
      (waitLoop probe i fuel).checks = fuel := by
  induction fuel with
  | zero => intro i _; simp [waitLoop]
  | succ n ih =>
    intro i hok
    by_cases h : probe i = true
    · simp [waitLoop, h] at hok
    · simp only [waitLoop, h, Bool.false_eq_true, if_false] at hok ⊢
      rw [ih (i + 1) hok]

/-- C3: `wait_for_server probe n` performs at most `n` reachability checks,
sleeps at most `∑ i < n, min (2 ^ i) 8` seconds (delays doubling from 1,
capped at 8), returns true exactly when one of the first `n` checks
succeeds — stopping at the first success — and returns false only after
all `n` checks have been made and failed. -/
theorem wait_for_server_bounds (probe : Nat → Bool) (n : Nat) :
    (wait_for_server probe n).checks ≤ n ∧
    (wait_for_server probe n).sleepTime ≤ ∑ i ∈ Finset.range n, min (2 ^ i) 8 ∧
    ((wait_for_server probe n).ok = true ↔ ∃ i, i < n ∧ probe i = true) ∧
    ((wait_for_server probe n).ok = true →
      0 < (wait_for_server probe n).checks ∧
      probe ((wait_for_server probe n).checks - 1) = true ∧
      ∀ j, j < (wait_for_server probe n).checks - 1 → probe j = false) ∧
    ((wait_for_server probe n).ok = false →
      (wait_for_server probe n).checks = n ∧ ∀ i, i < n → probe i = false) := by
  refine ⟨waitLoop_checks_le probe n 0, ?_, ?_, ?_, ?_⟩
  · have := waitLoop_sleep_le probe n 0
    simpa using this
  · have := waitLoop_ok_iff probe n 0
    simpa using this
  · intro hok
    have := waitLoop_first_success probe n 0 hok
    simpa using this
  · intro hok
    refine ⟨waitLoop_all_fail probe n 0 hok, ?_⟩
    intro i hi
    have hok' : (waitLoop probe 0 n).ok = false := hok
    have hiff := waitLoop_ok_iff probe n 0
    rw [hok'] at hiff
    by_contra hpi
    have : (false : Bool) = true := hiff.mpr ⟨i, hi, by
      simpa using Bool.not_eq_false (probe i) |>.mp hpi⟩
    cases this

/-! ## Command Resolver -/

/-- What `find_elizaos_command` returns, together with the executables it
trial-invoked (in order) to decide. -/
structure ResolveOutcome where
  program : String
  argPre : List String
  trials : List String

/-- `find_elizaos_command` (lib.rs lines 222-267).  On Windows it first
trial-invokes `bunx --bun elizaos --version`; if the OS could start it,
the wrapper form is returned, otherwise `elizaos --version` is tried and
the direct form is returned whether or not that trial started.  On other
platforms the `bunx` trial is skipped and only `elizaos` is tried.
`bunxStarts` / `elizaosStarts` say whether the OS could start each trial
process. -/
def find_elizaos_command (isWindows bunxStarts elizaosStarts : Bool) :
    ResolveOutcome :=
  if isWindows then
    if bunxStarts then ⟨"bunx", ["--bun", "elizaos"], ["bunx"]⟩
    else if elizaosStarts then ⟨"elizaos", [], ["bunx", "elizaos"]⟩
    else ⟨"elizaos", [], ["bunx", "elizaos"]⟩
  else
    if elizaosStarts then ⟨"elizaos", [], ["elizaos"]⟩
    else ⟨"elizaos", [], ["elizaos"]⟩

/-- C7: when both trials fail to start, the resolver still returns the
direct invocation (`elizaos` with an empty argument prefix) on every
platform; and on non-Windows platforms the `bunx` wrapper is never
trial-invoked at all. -/
theorem resolver_falls_back_to_direct (w b e : Bool) :
    (find_elizaos_command w false false).program = "elizaos" ∧
    (find_elizaos_command w false false).argPre = [] ∧
    "bunx" ∉ (find_elizaos_command false b e).trials := by
  refine ⟨?_, ?_, ?_⟩ <;> cases w <;> cases b <;> cases e <;>
    simp [find_elizaos_command]

/-! ## Process Supervisor -/

/-- Abstract handle to a spawned child process. -/
structure Child where
  pid : Nat

/-- The shared supervisor state: the contents of the `SERVER_PROCESS`
mutex, holding at most one child handle. -/
structure SupState where
  handle : Option Child

/-- `shutdown_server` (lib.rs lines 270-287): under the lock, if a handle
is present its child is killed (the kill result is only logged) and the
handle is unconditionally cleared; on lock failure nothing changes.
Returns the new state and `some result` when a kill was attempted. -/
def shutdown_server (lockOk : Bool) (kill : Child → Bool) (st : SupState) :
    SupState × Option Bool :=
  if lockOk then
    match st.handle with
    | some child => (⟨none⟩, some (kill child))
    | none => (⟨none⟩, none)
  else (st, none)

/-- C4: shutdown is idempotent — after one (locked) call the handle is
cleared, and a second call in succession finds no handle, attempts no
kill, and leaves the state exactly as the first call left it. -/
theorem shutdown_idempotent (kill : Child → Bool) (st : SupState) :
    (shutdown_server true kill (shutdown_server true kill st).1).1
      = (shutdown_server true kill st).1 ∧
    (shutdown_server true kill (shutdown_server true kill st).1).2 = none ∧
    ((shutdown_server true kill st).1).handle = none := by
  cases st with
  | mk h => cases h <;> simp [shutdown_server]

/-- What was handed to `Command::spawn`: program, argument list, working
directory and child environment. -/
structure SpawnSpec where
  program : String
  args : List String
  cwd : Option Path
  envVars : List (String × String)

/-- The fixed environment block set on the child (lib.rs lines 348-358):
local-server mode, update-check suppression, and output plainness. -/
def childEnvVars : List (String × String) :=
  [("ELIZA_USE_LOCAL_SERVER", "true"),
   ("CI", "true"),
   ("NO_UPDATE_CHECK", "1"),
   ("ELIZA_TEST_MODE", "true"),
   ("ELIZA_CLI_TEST_MODE", "true"),
   ("ELIZA_SKIP_LOCAL_CLI_DELEGATION", "true"),
   ("npm_config_update_notifier", "false"),
   ("NO_COLOR", "true")]

/-- The observable effects of one run of the setup closure: the spawn that
was attempted (if any), whether the background readiness wait was
launched, and the resulting shared state. -/
structure SetupOutcome where
  attempted : Option SpawnSpec
  waitStarted : Bool
  newState : SupState

/-- The setup closure of `run` (lib.rs lines 304-394).  `reachable` is
what `is_server_running()` returns at call time; `spawnResult` is what
`cmd.spawn()` would return (`none` = OS error); `lockOk` is whether the
`SERVER_PROCESS` lock is acquired.  When a server is already reachable
nothing is spawned; otherwise the project directory is located, the
command resolved, the mode chosen from `TAURI_DEV` or the debug-build
marker, the fixed `--no-emoji` flag and mode command appended, the fixed
environment block set, and the child spawned; on success under the lock
the handle is stored and the readiness wait thread started. -/
def ensure_started (fs : FS) (env : Env)
    (isWindows bunxStarts elizaosStarts : Bool)
    (tauriDevSet debugAssertions : Bool) (reachable : Bool)
    (spawnResult : Option Child) (lockOk : Bool) (st : SupState) :
    SetupOutcome :=
  if !reachable then
    let project_dir := find_project_directory fs env
    let is_dev := tauriDevSet || debugAssertions
    let modeCommand := if is_dev then "dev" else "start"
    let resolved := find_elizaos_command isWindows bunxStarts elizaosStarts
    let cmd_args := resolved.argPre ++ ["--no-emoji", modeCommand]
    let spawnSpec : SpawnSpec :=
      ⟨resolved.program, cmd_args, project_dir, childEnvVars⟩
    match spawnResult with
    | some child =>
      if lockOk then ⟨some spawnSpec, true, ⟨some child⟩⟩
      else ⟨some spawnSpec, false, st⟩
    | none => ⟨some spawnSpec, false, st⟩
  else ⟨none, false, st⟩

/-- C2: when the reachability probe reports true at call time, the setup
closure attempts no spawn and leaves the shared state untouched, so it
never takes ownership of a second child while a server is reachable (the
state holds at most one handle by construction). -/
theorem no_spawn_when_reachable (fs : FS) (env : Env)
    (w b e td da : Bool) (spawnResult : Option Child) (lockOk : Bool)
    (st : SupState) :
    (ensure_started fs env w b e td da true spawnResult lockOk st).attempted
      = none ∧
    (ensure_started fs env w b e td da true spawnResult lockOk st).newState
      = st := by
  constructor <;> rfl

/-- C5: when the spawn fails (the OS returns an error), the setup closure
stores no handle — the shared state is returned unchanged — and the
readiness wait is never started; the failure is only logged. -/
theorem spawn_failure_leaves_state (fs : FS) (env : Env)
    (w b e td da : Bool) (lockOk : Bool) (st : SupState) :
    (ensure_started fs env w b e td da false none lockOk st).newState = st ∧
    (ensure_started fs env w b e td da false none lockOk st).waitStarted
      = false := by
  constructor <;> rfl

/-- C8: whenever the setup closure attempts a spawn, the command it builds
is the resolver's program with the resolver's argument prefix followed by
the fixed `--no-emoji` flag and the mode-selector command (`dev` when the
environment flag or the debug-build marker is set, else `start`), run in
the located project directory with exactly the fixed child environment
block. -/
theorem spawn_command_built (fs : FS) (env : Env)
    (w b e td da : Bool) (spawnResult : Option Child) (lockOk : Bool)
    (st : SupState) :
    ∃ spawnSpec,
      (ensure_started fs env w b e td da false spawnResult lockOk st).attempted
        = some spawnSpec ∧
      spawnSpec.program = (find_elizaos_command w b e).program ∧
      spawnSpec.args = (find_elizaos_command w b e).argPre ++
        ["--no-emoji", if td || da then "dev" else "start"] ∧
      spawnSpec.cwd = find_project_directory fs env ∧
      spawnSpec.envVars = childEnvVars := by
  refine ⟨⟨(find_elizaos_command w b e).program,
    (find_elizaos_command w b e).argPre ++
      ["--no-emoji", if td || da then "dev" else "start"],
    find_project_directory fs env, childEnvVars⟩, ?_, rfl, rfl, rfl, rfl⟩
  cases spawnResult with
  | none => rfl
  | some child => cases lockOk <;> rfl

/-! ## Diagnostic Logger -/

/-- The observable effects of one `log_to_file` call: the line appended to
the log file (with its path), if any, and the line written to stderr. -/
structure LogOutcome where
  fileLine : Option (Path × String)
  stderrLine : String

/-- `log_to_file` (lib.rs lines 17-46).  `isWindows` is the `cfg(windows)`
build marker, `appData` the value of `APPDATA` (absent when unset),
`openOk` whether the log file could be opened; directory-creation,
open and write failures are all swallowed.  The raw message always goes
to stderr. -/
def log_to_file (isWindows : Bool) (appData : Option String) (openOk : Bool)
    (timestamp : Nat) (message : String) : LogOutcome :=
  if isWindows then
    match appData with
    | some app_data =>
      let log_path : Path := [app_data, "Eliza Desktop", "eliza-desktop.log"]
      if openOk then
        ⟨some (log_path, "[" ++ toString timestamp ++ "] " ++ message), message⟩
      else ⟨none, message⟩
    | none => ⟨none, message⟩
  else ⟨none, message⟩

/-- C10: the logger always writes the raw message to stderr; a file line
is produced only in Windows builds with `APPDATA` set (and a successful
open) — in every other configuration no file is written — open failures
are swallowed, and any line written is the timestamped message at the
per-user log path. -/
theorem logger_effects (w : Bool) (appData : Option String) (openOk : Bool)
    (ts : Nat) (msg : String) :
    (log_to_file w appData openOk ts msg).stderrLine = msg ∧
    ((log_to_file w appData openOk ts msg).fileLine ≠ none →
      w = true ∧ appData ≠ none) ∧
    (w = false ∨ appData = none →
      (log_to_file w appData openOk ts msg).fileLine = none) ∧
    (openOk = false → (log_to_file w appData openOk ts msg).fileLine = none) ∧
    (∀ p line, (log_to_file w appData openOk ts msg).fileLine = some (p, line) →
      line = "[" ++ toString ts ++ "] " ++ msg ∧
      ∃ ad, appData = some ad ∧ p = [ad, "Eliza Desktop", "eliza-desktop.log"]) := by
  cases w <;> cases appData <;> cases openOk <;> simp [log_to_file]

end ElizaDesktop
